import Mathlib

/-!
Verification of the Opencode TTS plugin core (src/src/local/speak.ts with its
audio helpers, and src/src/engine-http.ts) against its specification.

Strings are modelled as `List Char`.  The JavaScript regular expression
`/[^.!?\n]+[.!?\n]*|[\n]+/g` used by `splitText` is modelled by an explicit
left-to-right scanner (`matchParts`): at each position the engine first tries
`[^.!?\n]+[.!?\n]*` (a non-empty run of non-terminator characters followed by
a greedy run of terminator characters), then `[\n]+` (a run of newlines), and
if neither alternative can start at the current character (which happens
exactly when that character is one of `.`, `!`, `?`) it advances one
character without producing a match, as `String.prototype.match` with the
`g` flag does.
-/

namespace Tts

/-- The sentence-terminator class `[.!?\n]` of the `splitText` regex. -/
def isTerm (c : Char) : Bool :=
  c == '.' || c == '!' || c == '?' || c == '\n'

/-- Sentence punctuation proper: the terminators other than newline. -/
def isPunct (c : Char) : Bool :=
  c == '.' || c == '!' || c == '?'

/-- The whitespace class used by JavaScript `trim` and `\s` (the ASCII part;
the input alphabet of interest contains no exotic Unicode whitespace). -/
def isSpaceC (c : Char) : Bool :=
  c == ' ' || c == '\t' || c == '\n' || c == '\r' || c == '\x0b' || c == '\x0c'

/-- Fuel-indexed scanner behind `matchParts`; the fuel only forces structural
recursion and is irrelevant once it is at least the length of the input
(`matchPartsF_congr`). -/
def matchPartsF : Nat → List Char → List (List Char)
  | _, [] => []
  | 0, _ :: _ => []
  | fuel + 1, c :: cs =>
    if isTerm c = false then
      ((c :: cs).takeWhile (fun x => !isTerm x) ++
        (((c :: cs).dropWhile (fun x => !isTerm x)).takeWhile isTerm)) ::
        matchPartsF fuel (((c :: cs).dropWhile (fun x => !isTerm x)).dropWhile isTerm)
    else if c = '\n' then
      ((c :: cs).takeWhile (fun x => x == '\n')) ::
        matchPartsF fuel ((c :: cs).dropWhile (fun x => x == '\n'))
    else
      matchPartsF fuel cs

/-- The segmentation pass of `splitText` (speak.ts line 202):
`text.match(/[^.!?\n]+[.!?\n]*|[\n]+/g)`, returning the list of matches in
order (`[]` when the regex matches nowhere, i.e. when `match` returns
`null`). -/
def matchParts (text : List Char) : List (List Char) :=
  matchPartsF text.length text

/-- JavaScript `String.prototype.trim`: strip leading and trailing
whitespace. -/
def trimC (s : List Char) : List Char :=
  ((s.dropWhile isSpaceC).reverse.dropWhile isSpaceC).reverse

/-- Fuel-indexed splitter behind `wordsOf`. -/
def wordsOfF : Nat → List Char → List (List Char)
  | _, [] => []
  | 0, _ :: _ => []
  | fuel + 1, c :: cs =>
    if isSpaceC c then wordsOfF fuel cs
    else ((c :: cs).takeWhile (fun x => !isSpaceC x)) ::
      wordsOfF fuel ((c :: cs).dropWhile (fun x => !isSpaceC x))

/-- The word-splitting step `trimmed.split(/\s+/)` combined with the loop's
`if (!word) continue` guard (speak.ts lines 213, 217): the maximal runs of
non-whitespace characters, in order, with empty strings dropped. -/
def wordsOf (s : List Char) : List (List Char) :=
  wordsOfF s.length s

/-- The greedy word-repacking loop of `splitText` (speak.ts lines 214-232):
accumulate words into `current`, flushing `current` as a chunk whenever
appending the next word (with a joining space) would exceed `maxLen`. -/
def packWords (maxLen : Nat) : List (List Char) → List Char → List (List Char)
  | [], current => if current = [] then [] else [current]
  | w :: ws, current =>
    if w = [] then packWords maxLen ws current
    else if current = [] then packWords maxLen ws w
    else if current.length + w.length + 1 ≤ maxLen then
      packWords maxLen ws (current ++ ' ' :: w)
    else
      current :: packWords maxLen ws w

/-- The per-part body of the `for (const part of parts)` loop of `splitText`
(speak.ts lines 205-233): trim the part, drop it if empty, keep it whole if
within the limit, otherwise repack its words greedily. -/
def partChunks (part : List Char) : List (List Char) :=
  if trimC part = [] then []
  else if (trimC part).length ≤ 240 then [trimC part]
  else packWords 240 (wordsOf (trimC part)) []

/-- `splitText` (speak.ts lines 200-236): segment the text on sentence
boundaries (falling back to the whole text when the regex finds no match),
then chunk each segment. -/
def splitText (text : List Char) : List (List Char) :=
  (if matchParts text = [] then [text] else matchParts text).map partChunks |>.flatten

/-- Characters that survive whitespace removal; chunk concatenation is
compared `ignoring whitespace normalization` through this projection. -/
def nonSp (s : List Char) : List Char :=
  s.filter (fun c => !isSpaceC c)

/-!
The streaming playback loop of `speakLocal` (speak.ts lines 175-193, and the
textually parallel direct-mode loop at lines 137-159).  JavaScript is
single-threaded, so `config.enabled` and the module-level `cancelToken` can
change only while the loop is suspended at an `await`; the environment
therefore records, for each chunk index `i`, the values the two guards
observe at the check before `await tasks[i]` (line 177) and at the check
before `playAudio` (line 185), plus whether the i-th `playAudio` call
resolves (it rejects exactly when every candidate player fails).  `await
tasks[i]` retrieves chunk i's result by index, so the order in which the
worker pool finishes generating chunks cannot influence the control flow of
the loop; completion order only determines which temp files exist
(`producedFiles`).
-/

/-- The per-checkpoint environment a single run of the playback loop
observes. -/
structure LoopEnv where
  enabledAtAwait : Nat → Bool
  tokenOkAtAwait : Nat → Bool
  enabledAtPlay : Nat → Bool
  tokenOkAtPlay : Nat → Bool
  playOk : Nat → Bool

/-- The guard `!config.enabled || token !== cancelToken` at the top of the
loop body (line 177), as the conjunction that lets the iteration go on. -/
def okAtAwait (e : LoopEnv) (i : Nat) : Bool :=
  e.enabledAtAwait i && e.tokenOkAtAwait i

/-- The same guard re-checked after the result arrives, before playback
(line 185). -/
def okAtPlay (e : LoopEnv) (i : Nat) : Bool :=
  e.enabledAtPlay i && e.tokenOkAtPlay i

/-- How the loop ended: ran through all chunks, hit a guard and `break`-ed,
or was aborted by a rejected `playAudio` call. -/
inductive LoopExit
  | normal
  | stopped
  | playFailed
deriving DecidableEq

/-- Observable outcome of one playback loop: play invocations in order, the
temp files pushed onto `files`, and how the loop exited. -/
structure LoopResult where
  plays : List Nat
  received : List Nat
  exit : LoopExit
deriving DecidableEq

/-- The body of `playFromWorkers` (lines 176-192) over the remaining chunk
indices, with the `plays`/`files` accumulated so far. -/
def playLoopAux (e : LoopEnv) (plays received : List Nat) : List Nat → LoopResult
  | [] => ⟨plays, received, LoopExit.normal⟩
  | i :: rest =>
    if okAtAwait e i = false then ⟨plays, received, LoopExit.stopped⟩
    else
      if okAtPlay e i = false then ⟨plays, received ++ [i], LoopExit.stopped⟩
      else if e.playOk i then playLoopAux e (plays ++ [i]) (received ++ [i]) rest
      else ⟨plays ++ [i], received ++ [i], LoopExit.playFailed⟩

/-- `playFromWorkers` for an invocation with `n` chunks: consume results for
indices `0, 1, ..., n-1` strictly in order. -/
def playFromWorkers (e : LoopEnv) (n : Nat) : LoopResult :=
  playLoopAux e [] [] (List.range n)

/-- Modelled from the spec: the worker pool (src/local/pool.ts is not among
the sources; only its call sites are).  Per spec section 4.2 `enqueue`
returns a handle `resolved when that chunk's audio is generated and written
to a file`, and `speakLocal` enqueues every chunk up front (speak.ts lines
170-173), so the temp files produced for an invocation with `n` chunks are
exactly the chunks whose generation completed, whether or not the playback
loop ever consumed them.  Files are identified by their chunk index. -/
def producedFiles (generated : Nat → Bool) (n : Nat) : List Nat :=
  (List.range n).filter generated

/-- `unlink(file)`: deleting a missing file rejects (ENOENT), deleting an
existing one removes it.  The filesystem is the list of existing files. -/
def unlinkE {α : Type} [DecidableEq α] (fs : List α) (f : α) : Except Unit (List α) :=
  if f ∈ fs then Except.ok (fs.erase f) else Except.error ()

/-- `unlink(file).catch(() => {})` (speak.ts line 240): the per-file deletion
with its individually swallowed error. -/
def unlinkCaught {α : Type} [DecidableEq α] (fs : List α) (f : α) : Except Unit (List α) :=
  match unlinkE fs f with
  | Except.ok fs2 => Except.ok fs2
  | Except.error _ => Except.ok fs

/-- `cleanupFiles(files)` (speak.ts lines 238-241): best-effort deletion of
every path.  The `Promise.all` runs the per-file deletions independently;
since each acts on a distinct path the aggregate effect is this fold. -/
def cleanupFiles {α : Type} [DecidableEq α] (files : List α) (fs : List α) :
    Except Unit (List α) :=
  files.foldlM (fun st f => unlinkCaught st f) fs

/-- The filesystem state `cleanupFiles` leaves behind. -/
def cleanupRun {α : Type} [DecidableEq α] (files : List α) (fs : List α) : List α :=
  files.foldl (fun st f => if f ∈ st then st.erase f else st) fs

/-- One `speakLocal` invocation in worker mode, from the playback loop on:
run the loop, then (in the `finally`) clean up the tracked `files` list
against the temp files generation actually produced. -/
def speakWorkersRun (e : LoopEnv) (generated : Nat → Bool) (n : Nat) :
    LoopResult × List Nat :=
  ((playFromWorkers e n),
    cleanupRun (playFromWorkers e n).received (producedFiles generated n))

/-!
The player fallback engine `tryPlayers` (audio helpers, speak.ts part two,
lines 315-359).  Candidates are identified by name; `runCommand` spawns the
candidate's command and returns its exit code, and `Bun.spawn` throws
synchronously when the executable does not exist, which `tryPlayers` does
not catch.  The oracle `o k` gives the outcome of the k-th spawn performed
by one `tryPlayers` call: `some code` for a process that exited with `code`,
`none` for a spawn error.
-/

/-- How a `tryPlayers` call returns: a resolved promise after a successful
candidate, the aggregated `All audio players failed` rejection, or an
uncaught spawn exception. -/
inductive TryOutcome
  | success
  | allFailed
  | spawnErr
deriving DecidableEq

/-- Observables of one `tryPlayers` call: every player spawned in order, the
`errors` list the failure message aggregates, the value of
`lastWorkingPlayer` afterwards, and the way the call returned. -/
structure TryResult where
  attempts : List String
  failures : List String
  cache : Option String
  outcome : TryOutcome
deriving DecidableEq

/-- The `for (const player of players)` loop (lines 332-340): try each
remaining candidate in declared order, stopping at the first exit code 0 and
caching its name, recording failures, aborting on a spawn exception. -/
def tryLoop (o : Nat → Option Int) :
    List String → Nat → List String → List String → Option String → TryResult
  | [], _, att, errs, cache => ⟨att, errs, cache, TryOutcome.allFailed⟩
  | p :: rest, k, att, errs, cache =>
    match o k with
    | none => ⟨att ++ [p], errs, cache, TryOutcome.spawnErr⟩
    | some code =>
      if code = 0 then ⟨att ++ [p], errs, some p, TryOutcome.success⟩
      else tryLoop o rest (k + 1) (att ++ [p]) (errs ++ [p]) cache

/-- `tryPlayers` (lines 315-359): try the cached `lastWorkingPlayer` first
when its name occurs in the candidate list (cleared on a non-zero exit, kept
on the fast-path success, untouched by a spawn exception), then fall through
to the ordered scan. -/
def tryPlayers (players : List String) (cache : Option String)
    (o : Nat → Option Int) : TryResult :=
  match cache with
  | some c =>
    if c ∈ players then
      match o 0 with
      | none => ⟨[c], [], some c, TryOutcome.spawnErr⟩
      | some code =>
        if code = 0 then ⟨[c], [], some c, TryOutcome.success⟩
        else tryLoop o players 1 [c] [] none
    else tryLoop o players 0 [] [] (some c)
  | none => tryLoop o players 0 [] [] none

/-- The Linux candidate list of `playAudio` (lines 306-311). -/
def linuxPlayers : List String :=
  ["paplay", "aplay", "mpv", "ffplay"]

/-- The macOS candidate list of `playAudio` (lines 279-282). -/
def darwinPlayers : List String :=
  ["afplay", "ffplay"]

/-!
WAV sample encoding (`writeWav`, speak.ts part two, lines 428-431).  The
JavaScript doubles are modelled by rationals: the clamp is pure order logic
and the scale factors are the exact integers `0x8000` and `0x7fff`, so the
range property is independent of rounding (`s * 0x8000` is exact for any
binary float `s`, and rounding is monotone, so a float evaluation lies
between the rational values at the same and at the clamped inputs).
`DataView.setInt16` applies ECMAScript ToInt16: truncate toward zero, then
wrap modulo 2^16 into [-32768, 32767]; `toInt16` models that conversion
exactly. -/

/-- `Math.max(-1, Math.min(1, samples[i]))` (line 429). -/
def clampSample (q : ℚ) : ℚ :=
  max (-1) (min 1 q)

/-- `s < 0 ? s * 0x8000 : s * 0x7fff` (line 430). -/
def scaleSample (q : ℚ) : ℚ :=
  if clampSample q < 0 then clampSample q * 32768 else clampSample q * 32767

/-- Truncation toward zero, the first step of ToInt16. -/
def truncQ (q : ℚ) : Int :=
  if 0 ≤ q then Int.floor q else Int.ceil q

/-- ECMAScript ToInt16: truncate, reduce modulo 2^16, re-center into
[-32768, 32767]. -/
def toInt16 (q : ℚ) : Int :=
  if 32768 ≤ truncQ q % 65536 then truncQ q % 65536 - 65536 else truncQ q % 65536

/-- The 16-bit value `writeWav` stores for one floating sample. -/
def writeWavSample (q : ℚ) : Int :=
  toInt16 (scaleSample q)

/-!
The HTTP backend `speakHttp` and its private `playAudio`
(src/src/engine-http.ts lines 33-81).  Every external effect is an oracle in
the environment; `Except Unit` models promise rejection.
-/

/-- What the environment answers to each effect `speakHttp` performs. -/
structure HttpEnv where
  fetchRes : Except Unit Bool
  bodyRes : Except Unit Unit
  writeRes : Except Unit Unit
  playerRes : String → Except Unit Unit
  platform : String

/-- The effects a `speakHttp` call performs, in order. -/
inductive HttpAction
  | fetchReq
  | writeFile
  | play
deriving DecidableEq

/-- A `try { ... } catch {}` around a unit-valued step. -/
def catchAll (r : Except Unit Unit) : Except Unit Unit :=
  match r with
  | Except.ok _ => Except.ok ()
  | Except.error _ => Except.ok ()

/-- The body of the private `playAudio` of engine-http.ts (lines 63-79):
platform-specific shell commands, with the Linux branch cascading
paplay → aplay → mpv through nested try/catch. -/
def playAudioHttpInner (env : HttpEnv) : Except Unit Unit :=
  if env.platform = "darwin" then env.playerRes "afplay"
  else if env.platform = "win32" then env.playerRes "powershell"
  else
    match env.playerRes "paplay" with
    | Except.ok _ => Except.ok ()
    | Except.error _ =>
      match env.playerRes "aplay" with
      | Except.ok _ => Except.ok ()
      | Except.error _ => env.playerRes "mpv"

/-- `playAudio` of engine-http.ts: the whole body is wrapped in
`try { ... } catch {}` (lines 63-80). -/
def playAudioHttp (env : HttpEnv) : Except Unit Unit :=
  catchAll (playAudioHttpInner env)

/-- The `try` block of `speakHttp` (lines 36-57): fetch, bail out silently on
a non-OK response, read the body, write the temp file, play it.  Returns the
block's outcome and the effects performed. -/
def speakHttpTry (env : HttpEnv) : Except Unit Unit × List HttpAction :=
  match env.fetchRes with
  | Except.error e => (Except.error e, [HttpAction.fetchReq])
  | Except.ok ok =>
    if ok = false then (Except.ok (), [HttpAction.fetchReq])
    else
      match env.bodyRes with
      | Except.error e => (Except.error e, [HttpAction.fetchReq])
      | Except.ok _ =>
        match env.writeRes with
        | Except.error e => (Except.error e, [HttpAction.fetchReq, HttpAction.writeFile])
        | Except.ok _ =>
          (playAudioHttp env, [HttpAction.fetchReq, HttpAction.writeFile, HttpAction.play])

/-- `speakHttp(text, config, $)` (engine-http.ts lines 33-58): return
immediately when disabled or the text is empty/whitespace, otherwise run the
`try` block with its errors swallowed by the trailing `catch {}`. -/
def speakHttp (env : HttpEnv) (enabled : Bool) (text : List Char) :
    Except Unit Unit × List HttpAction :=
  if enabled = false ∨ trimC text = [] then (Except.ok (), [])
  else
    ((catchAll (speakHttpTry env).1), (speakHttpTry env).2)

/-! General list facts used throughout, then step equations for the
fuel-indexed scanners. -/

theorem length_dropWhile_le {α : Type} (p : α → Bool) (l : List α) :
    (l.dropWhile p).length ≤ l.length := by
  induction l with
  | nil => simp [List.dropWhile]
  | cons c cs ih =>
    by_cases h : p c
    · simp only [List.dropWhile, h]
      exact Nat.le_succ_of_le ih
    · simp only [List.dropWhile, h]
      simp

theorem dropWhile_cons_pos {α : Type} (p : α → Bool) (c : α) (cs : List α)
    (h : p c = true) : (c :: cs).dropWhile p = cs.dropWhile p := by
  simp [List.dropWhile, h]

theorem dropWhile_cons_neg {α : Type} (p : α → Bool) (c : α) (cs : List α)
    (h : p c = false) : (c :: cs).dropWhile p = c :: cs := by
  simp [List.dropWhile, h]

theorem takeWhile_cons_pos {α : Type} (p : α → Bool) (c : α) (cs : List α)
    (h : p c = true) : (c :: cs).takeWhile p = c :: cs.takeWhile p := by
  simp [List.takeWhile, h]

theorem dropWhile_idem {α : Type} (p : α → Bool) (l : List α) :
    (l.dropWhile p).dropWhile p = l.dropWhile p := by
  induction l with
  | nil => simp
  | cons c cs ih =>
    cases h : p c
    · rw [dropWhile_cons_neg p c cs h, dropWhile_cons_neg p c cs h]
    · rw [dropWhile_cons_pos p c cs h]
      exact ih

theorem matchPartsF_congr (f1 : Nat) :
    ∀ (f2 : Nat) (t : List Char), t.length ≤ f1 → t.length ≤ f2 →
      matchPartsF f1 t = matchPartsF f2 t := by
  induction f1 with
  | zero =>
    intro f2 t h1 _
    have : t = [] := List.eq_nil_of_length_eq_zero (Nat.le_zero.mp h1)
    subst this
    cases f2 <;> rfl
  | succ f1 ih =>
    intro f2 t h1 h2
    cases t with
    | nil => cases f2 <;> rfl
    | cons c cs =>
      cases f2 with
      | zero => simp at h2
      | succ f2 =>
        simp only [List.length_cons, Nat.succ_le_succ_iff] at h1 h2
        simp only [matchPartsF]
        split_ifs with hterm hnl
        · have hlen : ((((c :: cs).dropWhile (fun x => !isTerm x)).dropWhile isTerm)).length ≤
              cs.length := by
            rw [dropWhile_cons_pos _ c cs (by simp [hterm])]
            exact Nat.le_trans (length_dropWhile_le _ _) (length_dropWhile_le _ _)
          rw [ih f2 _ (Nat.le_trans hlen h1) (Nat.le_trans hlen h2)]
        · have hlen : ((c :: cs).dropWhile (fun x => x == '\n')).length ≤ cs.length := by
            rw [dropWhile_cons_pos _ c cs (by simp [hnl])]
            exact length_dropWhile_le _ _
          rw [ih f2 _ (Nat.le_trans hlen h1) (Nat.le_trans hlen h2)]
        · exact ih f2 cs h1 h2

theorem matchParts_nil : matchParts [] = [] := rfl

theorem matchParts_cons_body (c : Char) (cs : List Char) (h : isTerm c = false) :
    matchParts (c :: cs) =
      ((c :: cs).takeWhile (fun x => !isTerm x) ++
        (((c :: cs).dropWhile (fun x => !isTerm x)).takeWhile isTerm)) ::
        matchParts (((c :: cs).dropWhile (fun x => !isTerm x)).dropWhile isTerm) := by
  show matchPartsF (cs.length + 1) (c :: cs) = _
  simp only [matchPartsF]
  rw [if_pos h]
  have hlen : ((((c :: cs).dropWhile (fun x => !isTerm x)).dropWhile isTerm)).length ≤
      cs.length := by
    rw [dropWhile_cons_pos _ c cs (by simp [h])]
    exact Nat.le_trans (length_dropWhile_le _ _) (length_dropWhile_le _ _)
  rw [matchPartsF_congr cs.length _ _ hlen (Nat.le_refl _)]
  rfl

theorem matchParts_cons_nl (cs : List Char) :
    matchParts ('\n' :: cs) =
      (('\n' :: cs).takeWhile (fun x => x == '\n')) ::
        matchParts (('\n' :: cs).dropWhile (fun x => x == '\n')) := by
  show matchPartsF (cs.length + 1) ('\n' :: cs) = _
  simp only [matchPartsF]
  rw [if_neg (by decide), if_pos trivial]
  have hlen : (('\n' :: cs).dropWhile (fun x => x == '\n')).length ≤ cs.length := by
    rw [dropWhile_cons_pos _ _ cs (by decide)]
    exact length_dropWhile_le _ _
  rw [matchPartsF_congr cs.length _ _ hlen (Nat.le_refl _)]
  rfl

theorem matchParts_cons_punct (c : Char) (cs : List Char) (h : isTerm c = true)
    (hnl : c ≠ '\n') : matchParts (c :: cs) = matchParts cs := by
  show matchPartsF (cs.length + 1) (c :: cs) = _
  simp only [matchPartsF]
  rw [if_neg (by simp [h]), if_neg hnl]
  rfl

theorem wordsOfF_congr (f1 : Nat) :
    ∀ (f2 : Nat) (t : List Char), t.length ≤ f1 → t.length ≤ f2 →
      wordsOfF f1 t = wordsOfF f2 t := by
  induction f1 with
  | zero =>
    intro f2 t h1 _
    have : t = [] := List.eq_nil_of_length_eq_zero (Nat.le_zero.mp h1)
    subst this
    cases f2 <;> rfl
  | succ f1 ih =>
    intro f2 t h1 h2
    cases t with
    | nil => cases f2 <;> rfl
    | cons c cs =>
      cases f2 with
      | zero => simp at h2
      | succ f2 =>
        simp only [List.length_cons, Nat.succ_le_succ_iff] at h1 h2
        simp only [wordsOfF]
        split_ifs with hsp
        · exact ih f2 cs h1 h2
        · have hlen : ((c :: cs).dropWhile (fun x => !isSpaceC x)).length ≤ cs.length := by
            rw [dropWhile_cons_pos _ c cs (by simp [hsp])]
            exact length_dropWhile_le _ _
          rw [ih f2 _ (Nat.le_trans hlen h1) (Nat.le_trans hlen h2)]

theorem wordsOf_nil : wordsOf [] = [] := rfl

theorem wordsOf_cons_space (c : Char) (cs : List Char) (h : isSpaceC c = true) :
    wordsOf (c :: cs) = wordsOf cs := by
  show wordsOfF (cs.length + 1) (c :: cs) = _
  simp only [wordsOfF]
  rw [if_pos h]
  rfl

theorem wordsOf_cons_word (c : Char) (cs : List Char) (h : isSpaceC c = false) :
    wordsOf (c :: cs) =
      ((c :: cs).takeWhile (fun x => !isSpaceC x)) ::
        wordsOf ((c :: cs).dropWhile (fun x => !isSpaceC x)) := by
  show wordsOfF (cs.length + 1) (c :: cs) = _
  simp only [wordsOfF]
  rw [if_neg (by simp [h])]
  have hlen : ((c :: cs).dropWhile (fun x => !isSpaceC x)).length ≤ cs.length := by
    rw [dropWhile_cons_pos _ c cs (by simp [h])]
    exact length_dropWhile_le _ _
  rw [wordsOfF_congr cs.length _ _ hlen (Nat.le_refl _)]
  rfl

/-! Facts about `trimC`, `nonSp` and `wordsOf`. -/

theorem filter_takeWhile_self {α : Type} (p : α → Bool) (l : List α) :
    (l.takeWhile p).filter p = l.takeWhile p :=
  List.filter_eq_self.mpr (fun _ ha => List.mem_takeWhile_imp ha)

theorem filter_split {α : Type} (p : α → Bool) (l : List α) :
    l.filter p = (l.takeWhile p).filter p ++ (l.dropWhile p).filter p := by
  have h0 : l.takeWhile p ++ l.dropWhile p = l := List.takeWhile_append_dropWhile p l
  rw [← List.filter_append, h0]

theorem nonSp_append (a b : List Char) : nonSp (a ++ b) = nonSp a ++ nonSp b :=
  List.filter_append a b

theorem nonSp_dropWhile_space (s : List Char) :
    nonSp (s.dropWhile isSpaceC) = nonSp s := by
  induction s with
  | nil => rfl
  | cons c cs ih =>
    cases h : isSpaceC c
    · rw [dropWhile_cons_neg _ c cs h]
    · rw [dropWhile_cons_pos _ c cs h, ih]
      simp [nonSp, h]

theorem nonSp_reverse (s : List Char) : nonSp s.reverse = (nonSp s).reverse :=
  List.filter_reverse _ s

theorem nonSp_trimC (s : List Char) : nonSp (trimC s) = nonSp s := by
  unfold trimC
  rw [nonSp_reverse, nonSp_dropWhile_space, nonSp_reverse, List.reverse_reverse,
    nonSp_dropWhile_space]

theorem trimC_length_le (s : List Char) : (trimC s).length ≤ s.length := by
  unfold trimC
  calc ((s.dropWhile isSpaceC).reverse.dropWhile isSpaceC).reverse.length
      = ((s.dropWhile isSpaceC).reverse.dropWhile isSpaceC).length := List.length_reverse _
    _ ≤ (s.dropWhile isSpaceC).reverse.length := length_dropWhile_le _ _
    _ = (s.dropWhile isSpaceC).length := List.length_reverse _
    _ ≤ s.length := length_dropWhile_le _ _

theorem nonSp_eq_nil_of_trimC_eq_nil (s : List Char) (h : trimC s = []) :
    nonSp s = [] := by
  rw [← nonSp_trimC, h]
  rfl

theorem wordsOf_flatten_aux (n : Nat) :
    ∀ s : List Char, s.length ≤ n → (wordsOf s).flatten = nonSp s := by
  induction n with
  | zero =>
    intro s hs
    have : s = [] := List.eq_nil_of_length_eq_zero (Nat.le_zero.mp hs)
    subst this
    rfl
  | succ n ih =>
    intro s hs
    cases s with
    | nil => rfl
    | cons c cs =>
      simp only [List.length_cons, Nat.succ_le_succ_iff] at hs
      cases h : isSpaceC c
      · rw [wordsOf_cons_word c cs h, List.flatten_cons]
        have hdlen : ((c :: cs).dropWhile (fun x => !isSpaceC x)).length ≤ n := by
          rw [dropWhile_cons_pos _ c cs (by simp [h])]
          exact Nat.le_trans (length_dropWhile_le _ _) hs
        rw [ih _ hdlen]
        show _ = nonSp (c :: cs)
        unfold nonSp
        rw [filter_split (fun x => !isSpaceC x) (c :: cs), filter_takeWhile_self]
      · rw [wordsOf_cons_space c cs h, ih cs hs]
        simp [nonSp, h]

theorem wordsOf_flatten (s : List Char) : (wordsOf s).flatten = nonSp s :=
  wordsOf_flatten_aux s.length s (Nat.le_refl _)

theorem wordsOf_sound_aux (n : Nat) :
    ∀ s : List Char, s.length ≤ n → ∀ w ∈ wordsOf s,
      w ≠ [] ∧ ∀ ch ∈ w, isSpaceC ch = false := by
  induction n with
  | zero =>
    intro s hs
    have : s = [] := List.eq_nil_of_length_eq_zero (Nat.le_zero.mp hs)
    subst this
    intro w hw
    simp [wordsOf_nil] at hw
  | succ n ih =>
    intro s hs
    cases s with
    | nil => intro w hw; simp [wordsOf_nil] at hw
    | cons c cs =>
      simp only [List.length_cons, Nat.succ_le_succ_iff] at hs
      cases h : isSpaceC c
      · rw [wordsOf_cons_word c cs h]
        intro w hw
        rcases List.mem_cons.mp hw with hw | hw
        · subst hw
          constructor
          · rw [takeWhile_cons_pos _ c cs (by simp [h])]
            simp
          · intro ch hch
            have := List.mem_takeWhile_imp hch
            simpa using this
        · have hdlen : ((c :: cs).dropWhile (fun x => !isSpaceC x)).length ≤ n := by
            rw [dropWhile_cons_pos _ c cs (by simp [h])]
            exact Nat.le_trans (length_dropWhile_le _ _) hs
          exact ih _ hdlen w hw
      · rw [wordsOf_cons_space c cs h]
        exact ih cs hs

theorem wordsOf_sound (s : List Char) :
    ∀ w ∈ wordsOf s, w ≠ [] ∧ ∀ ch ∈ w, isSpaceC ch = false :=
  wordsOf_sound_aux s.length s (Nat.le_refl _)

theorem wordsOf_single (w : List Char) (hne : w ≠ [])
    (hns : ∀ ch ∈ w, isSpaceC ch = false) : wordsOf w = [w] := by
  cases w with
  | nil => exact absurd rfl hne
  | cons c cs =>
    have hc : isSpaceC c = false := hns c (List.mem_cons_self c cs)
    rw [wordsOf_cons_word c cs hc]
    have htake : (c :: cs).takeWhile (fun x => !isSpaceC x) = c :: cs :=
      List.takeWhile_eq_self_iff.mpr (fun a ha => by simp [hns a ha])
    have hdrop : (c :: cs).dropWhile (fun x => !isSpaceC x) = [] :=
      List.dropWhile_eq_nil_iff.mpr (fun a ha => by simp [hns a ha])
    rw [htake, hdrop, wordsOf_nil]

/-! Facts about `packWords` and `matchParts`. -/

theorem packWords_flatten (m : Nat) :
    ∀ (ws : List (List Char)) (cur : List Char),
      nonSp (packWords m ws cur).flatten = nonSp cur ++ nonSp ws.flatten := by
  intro ws
  induction ws with
  | nil =>
    intro cur
    by_cases h : cur = []
    · subst h
      simp [packWords, nonSp]
    · simp [packWords, h, nonSp]
  | cons w ws ih =>
    intro cur
    simp only [packWords]
    split_ifs with hw hcur hfit
    · subst hw
      rw [ih cur, List.flatten_cons]
      simp [nonSp]
    · subst hcur
      rw [ih w, List.flatten_cons, nonSp_append]
      simp [nonSp]
    · rw [ih (cur ++ ' ' :: w)]
      have hsp : nonSp (cur ++ ' ' :: w) = nonSp cur ++ nonSp w := by
        rw [nonSp_append]
        have h2 : nonSp (' ' :: w) = nonSp w := by simp [nonSp, isSpaceC]
        rw [h2]
      rw [hsp, List.flatten_cons, nonSp_append, List.append_assoc]
    · rw [List.flatten_cons, nonSp_append, ih w, List.flatten_cons, nonSp_append]

theorem packWords_good (m : Nat) :
    ∀ (ws : List (List Char)) (cur : List Char),
      (∀ w ∈ ws, w ≠ [] ∧ ∀ ch ∈ w, isSpaceC ch = false) →
      (cur = [] ∨ (cur ≠ [] ∧ (cur.length ≤ m ∨ ∀ ch ∈ cur, isSpaceC ch = false))) →
      ∀ chunk ∈ packWords m ws cur,
        chunk ≠ [] ∧ (chunk.length ≤ m ∨ ∀ ch ∈ chunk, isSpaceC ch = false) := by
  intro ws
  induction ws with
  | nil =>
    intro cur _ hcur chunk hchunk
    by_cases h : cur = []
    · subst h
      simp [packWords] at hchunk
    · simp only [packWords, if_neg h, List.mem_singleton] at hchunk
      subst hchunk
      rcases hcur with h2 | h2
      · exact absurd h2 h
      · exact h2
  | cons w ws ih =>
    intro cur hws hcur chunk hchunk
    have hw0 := hws w (List.mem_cons_self w ws)
    have hws' : ∀ v ∈ ws, v ≠ [] ∧ ∀ ch ∈ v, isSpaceC ch = false :=
      fun v hv => hws v (List.mem_cons_of_mem w hv)
    by_cases hw : w = []
    · rw [packWords, if_pos hw] at hchunk
      exact ih cur hws' hcur chunk hchunk
    · by_cases hcurnil : cur = []
      · rw [packWords, if_neg hw, if_pos hcurnil] at hchunk
        exact ih w hws' (Or.inr ⟨hw0.1, Or.inr hw0.2⟩) chunk hchunk
      · by_cases hfit : cur.length + w.length + 1 ≤ m
        · rw [packWords, if_neg hw, if_neg hcurnil, if_pos hfit] at hchunk
          have hnew : cur ++ ' ' :: w ≠ [] := by simp
          have hlen : (cur ++ ' ' :: w).length ≤ m := by
            simp only [List.length_append, List.length_cons]
            omega
          exact ih (cur ++ ' ' :: w) hws' (Or.inr ⟨hnew, Or.inl hlen⟩) chunk hchunk
        · rw [packWords, if_neg hw, if_neg hcurnil, if_neg hfit] at hchunk
          rcases List.mem_cons.mp hchunk with hc | hc
          · subst hc
            rcases hcur with h2 | h2
            · exact absurd h2 hcurnil
            · exact h2
          · exact ih w hws' (Or.inr ⟨hw0.1, Or.inr hw0.2⟩) chunk hc

theorem dropWhile_isTerm_dropWhile_nl (l : List Char) :
    (l.dropWhile (fun x => x == '\n')).dropWhile isTerm = l.dropWhile isTerm := by
  induction l with
  | nil => rfl
  | cons c cs ih =>
    by_cases h : c = '\n'
    · subst h
      rw [dropWhile_cons_pos _ _ cs (by decide), dropWhile_cons_pos isTerm _ cs (by decide)]
      exact ih
    · rw [dropWhile_cons_neg _ c cs (by simp [h])]

theorem punct_isTerm (c : Char) (h : isPunct c = true) : isTerm c = true := by
  simp only [isPunct, Bool.or_eq_true, beq_iff_eq] at h
  simp only [isTerm, Bool.or_eq_true, beq_iff_eq]
  tauto

theorem term_not_nl_punct (c : Char) (h : isTerm c = true) (hnl : c ≠ '\n') :
    isPunct c = true := by
  simp only [isTerm, Bool.or_eq_true, beq_iff_eq] at h
  simp only [isPunct, Bool.or_eq_true, beq_iff_eq]
  rcases h with ((h | h) | h) | h
  · exact Or.inl (Or.inl h)
  · exact Or.inl (Or.inr h)
  · exact Or.inr h
  · exact absurd h hnl

theorem matchParts_flatten_aux (n : Nat) :
    ∀ t : List Char, t.length ≤ n →
      nonSp (matchParts t).flatten = nonSp (t.dropWhile isTerm) := by
  induction n with
  | zero =>
    intro t ht
    have : t = [] := List.eq_nil_of_length_eq_zero (Nat.le_zero.mp ht)
    subst this
    rfl
  | succ n ih =>
    intro t ht
    cases t with
    | nil => rfl
    | cons c cs =>
      simp only [List.length_cons, Nat.succ_le_succ_iff] at ht
      by_cases hterm : isTerm c = false
      · rw [matchParts_cons_body c cs hterm, List.flatten_cons, nonSp_append]
        have hdrop1 : (c :: cs).dropWhile (fun x => !isTerm x) =
            cs.dropWhile (fun x => !isTerm x) :=
          dropWhile_cons_pos _ c cs (by simp [hterm])
        have hlen : ((((c :: cs).dropWhile (fun x => !isTerm x)).dropWhile isTerm)).length ≤
            n := by
          rw [hdrop1]
          exact Nat.le_trans (Nat.le_trans (length_dropWhile_le _ _)
            (length_dropWhile_le _ _)) ht
        rw [ih _ hlen, dropWhile_idem]
        rw [dropWhile_cons_neg isTerm c cs hterm]
        rw [← nonSp_append, List.append_assoc, List.takeWhile_append_dropWhile,
          List.takeWhile_append_dropWhile]
      · by_cases hnl : c = '\n'
        · subst hnl
          rw [matchParts_cons_nl cs, List.flatten_cons, nonSp_append]
          have hrunsp : nonSp (('\n' :: cs).takeWhile (fun x => x == '\n')) = [] := by
            apply List.filter_eq_nil_iff.mpr
            intro a ha
            have := List.mem_takeWhile_imp ha
            simp only [beq_iff_eq] at this
            subst this
            simp [isSpaceC]
          rw [hrunsp]
          have hlen : (('\n' :: cs).dropWhile (fun x => x == '\n')).length ≤ n := by
            rw [dropWhile_cons_pos _ _ cs (by decide)]
            exact Nat.le_trans (length_dropWhile_le _ _) ht
          rw [ih _ hlen, dropWhile_isTerm_dropWhile_nl,
            dropWhile_cons_pos isTerm _ cs (by decide)]
          rfl
        · have hterm' : isTerm c = true := by
            cases h : isTerm c
            · exact absurd h hterm
            · rfl
          rw [matchParts_cons_punct c cs hterm' hnl,
            dropWhile_cons_pos isTerm c cs hterm']
          exact ih cs ht

theorem matchParts_flatten (t : List Char) :
    nonSp (matchParts t).flatten = nonSp (t.dropWhile isTerm) :=
  matchParts_flatten_aux t.length t (Nat.le_refl _)

theorem matchParts_eq_nil_iff_aux (n : Nat) :
    ∀ t : List Char, t.length ≤ n → (matchParts t = [] ↔ t.all isPunct = true) := by
  induction n with
  | zero =>
    intro t ht
    have : t = [] := List.eq_nil_of_length_eq_zero (Nat.le_zero.mp ht)
    subst this
    simp [matchParts_nil]
  | succ n ih =>
    intro t ht
    cases t with
    | nil => simp [matchParts_nil]
    | cons c cs =>
      simp only [List.length_cons, Nat.succ_le_succ_iff] at ht
      by_cases hterm : isTerm c = false
      · rw [matchParts_cons_body c cs hterm]
        have hp : isPunct c = false := by
          cases h : isPunct c
          · rfl
          · exact absurd (punct_isTerm c h) (by simp [hterm])
        simp [hp]
      · by_cases hnl : c = '\n'
        · subst hnl
          rw [matchParts_cons_nl cs]
          simp [isPunct]
        · have hterm' : isTerm c = true := by
            cases h : isTerm c
            · exact absurd h hterm
            · rfl
          rw [matchParts_cons_punct c cs hterm' hnl]
          have hp : isPunct c = true := term_not_nl_punct c hterm' hnl
          rw [ih cs ht]
          simp [hp]

theorem matchParts_eq_nil_iff (t : List Char) :
    matchParts t = [] ↔ t.all isPunct = true :=
  matchParts_eq_nil_iff_aux t.length t (Nat.le_refl _)

/-! Per-part soundness and content preservation, then the chunker claims. -/

theorem nonSp_idem (s : List Char) : nonSp (nonSp s) = nonSp s := by
  simp [nonSp, List.filter_filter, Bool.and_self]

theorem partChunks_flatten (part : List Char) :
    nonSp (partChunks part).flatten = nonSp part := by
  unfold partChunks
  split_ifs with h1 h2
  · exact (nonSp_eq_nil_of_trimC_eq_nil part h1).symm
  · rw [List.flatten_cons, List.flatten_nil, List.append_nil, nonSp_trimC]
  · rw [packWords_flatten, wordsOf_flatten, nonSp_idem, nonSp_trimC]
    rfl

theorem partChunks_good (part chunk : List Char) (hmem : chunk ∈ partChunks part) :
    chunk ≠ [] ∧ (chunk.length ≤ 240 ∨ wordsOf chunk = [chunk]) := by
  unfold partChunks at hmem
  split_ifs at hmem with h1 h2
  · simp at hmem
  · rw [List.mem_singleton] at hmem
    subst hmem
    exact ⟨h1, Or.inl h2⟩
  · have hgood := packWords_good 240 (wordsOf (trimC part)) []
      (wordsOf_sound (trimC part)) (Or.inl rfl) chunk hmem
    refine ⟨hgood.1, ?_⟩
    rcases hgood.2 with h | h
    · exact Or.inl h
    · exact Or.inr (wordsOf_single chunk hgood.1 h)

theorem chunks_flatten (parts : List (List Char)) :
    nonSp ((parts.map partChunks).flatten).flatten = nonSp parts.flatten := by
  induction parts with
  | nil => rfl
  | cons p ps ih =>
    rw [List.map_cons, List.flatten_cons, List.flatten_append, nonSp_append,
      partChunks_flatten, List.flatten_cons, nonSp_append, ih]

/-- C5: every chunk `splitText` returns is a non-empty string, and each
chunk's length is at most the 240-character limit except when the chunk is a
single word (it then contains no whitespace at all, so the word splitter
returns it unsplit and verbatim). -/
theorem claim_C5 (text chunk : List Char) (hmem : chunk ∈ splitText text) :
    chunk ≠ [] ∧ (chunk.length ≤ 240 ∨ wordsOf chunk = [chunk]) := by
  unfold splitText at hmem
  rw [List.mem_flatten] at hmem
  obtain ⟨l, hl, hcl⟩ := hmem
  rw [List.mem_map] at hl
  obtain ⟨part, _, rfl⟩ := hl
  exact partChunks_good part chunk hcl

/-- C5 witness: the chunk `Hi.` of the text `Hi. Bye.` is non-empty and
within the limit. -/
theorem claim_C5_witness :
    (['H', 'i', '.'] : List Char) ≠ [] ∧
      ((['H', 'i', '.'] : List Char).length ≤ 240 ∨
        wordsOf ['H', 'i', '.'] = [['H', 'i', '.']]) :=
  claim_C5 ("Hi. Bye.".toList) ['H', 'i', '.'] (by decide)

/-- C6 counterexample: the claim that concatenating the chunks reconstructs
the original word sequence fails on `.a` (the leading `.` is dropped, so the
word `.a` becomes `a`) and on `Try .NET now` (the segmenter cuts inside the
word `.NET`, so the word sequence gains an extra word). -/
theorem claim_C6_counterexample :
    ((splitText (".a".toList)).map wordsOf).flatten ≠ wordsOf (".a".toList) ∧
      ((splitText ("Try .NET now".toList)).map wordsOf).flatten ≠
        wordsOf ("Try .NET now".toList) := by
  constructor
  · decide
  · decide

/-- C6 (amended): concatenating the chunks in order preserves the original
text's sequence of non-whitespace characters — nothing is dropped or
duplicated — except that a leading run of sentence punctuation before the
first non-terminator character is dropped (unless the whole text consists of
sentence punctuation, in which case the regex matches nothing and the text
is passed through whole); because segment boundaries can fall inside a word
that contains sentence punctuation, the exact word sequence is not always
preserved, only the character sequence. -/
theorem claim_C6_amended (text : List Char) :
    nonSp (splitText text).flatten =
      if text.all isPunct = true then nonSp text
      else nonSp (text.dropWhile isTerm) := by
  unfold splitText
  by_cases h : matchParts text = []
  · rw [if_pos h, if_pos ((matchParts_eq_nil_iff text).mp h), chunks_flatten]
    simp [nonSp]
  · rw [if_neg h, if_neg (fun hc => h ((matchParts_eq_nil_iff text).mpr hc)),
      chunks_flatten, matchParts_flatten]

theorem takeWhile_cons_neg {α : Type} (p : α → Bool) (c : α) (cs : List α)
    (h : p c = false) : (c :: cs).takeWhile p = [] := by
  simp [List.takeWhile, h]

theorem takeWhile_append_of_all {α : Type} (p : α → Bool) (u v : List α)
    (h : ∀ a ∈ u, p a = true) : (u ++ v).takeWhile p = u ++ v.takeWhile p := by
  induction u with
  | nil => simp
  | cons c cs ih =>
    rw [List.cons_append, takeWhile_cons_pos p c _ (h c (List.mem_cons_self c cs))]
    rw [ih (fun a ha => h a (List.mem_cons_of_mem c ha))]
    rfl

theorem dropWhile_append_of_all {α : Type} (p : α → Bool) (u v : List α)
    (h : ∀ a ∈ u, p a = true) : (u ++ v).dropWhile p = v.dropWhile p := by
  induction u with
  | nil => simp
  | cons c cs ih =>
    rw [List.cons_append, dropWhile_cons_pos p c _ (h c (List.mem_cons_self c cs))]
    exact ih (fun a ha => h a (List.mem_cons_of_mem c ha))

/-- C7 counterexample: `Hi. Bye.` is well under the 240-character limit, yet
`splitText` returns two chunks, not one chunk equal to the trimmed input —
sentence splitting happens regardless of total length. -/
theorem claim_C7_counterexample :
    ("Hi. Bye.".toList).length < 240 ∧
      (splitText ("Hi. Bye.".toList)).length = 2 ∧
      splitText ("Hi. Bye.".toList) ≠ [trimC ("Hi. Bye.".toList)] := by
  refine ⟨by decide, by decide, by decide⟩

/-- C7 (amended): for an input under the 240-character limit whose
sentence-terminator characters occur only as a trailing run — so the
sentence segmenter produces a single segment — and whose trimmed form is
non-empty, `splitText` returns exactly one chunk equal to the trimmed
input.  (In general a short text still splits at every sentence boundary,
as the counterexample shows.) -/
theorem claim_C7_amended (text bodyPart tailPart : List Char)
    (hsplit : text = bodyPart ++ tailPart) (hbody : bodyPart ≠ [])
    (hbodyT : ∀ c ∈ bodyPart, isTerm c = false)
    (htailT : ∀ c ∈ tailPart, isTerm c = true)
    (hlen : text.length < 240) (hne : trimC text ≠ []) :
    splitText text = [trimC text] := by
  subst hsplit
  obtain ⟨c, body2, rfl⟩ : ∃ c body2, bodyPart = c :: body2 := by
    cases bodyPart with
    | nil => exact absurd rfl hbody
    | cons c body2 => exact ⟨c, body2, rfl⟩
  have hc : isTerm c = false := hbodyT c (List.mem_cons_self c body2)
  have hall2 : ∀ a ∈ c :: body2, (fun x => !isTerm x) a = true := by
    intro a ha
    simp [hbodyT a ha]
  have htake : ((c :: body2) ++ tailPart).takeWhile (fun x => !isTerm x) = c :: body2 := by
    rw [takeWhile_append_of_all _ _ _ hall2]
    cases tailPart with
    | nil => simp
    | cons t ts =>
      rw [takeWhile_cons_neg _ t ts (by simp [htailT t (List.mem_cons_self t ts)])]
      simp
  have hdrop : ((c :: body2) ++ tailPart).dropWhile (fun x => !isTerm x) = tailPart := by
    rw [dropWhile_append_of_all _ _ _ hall2]
    cases tailPart with
    | nil => rfl
    | cons t ts =>
      exact dropWhile_cons_neg _ t ts (by simp [htailT t (List.mem_cons_self t ts)])
  have hmp : matchParts ((c :: body2) ++ tailPart) = [(c :: body2) ++ tailPart] := by
    rw [List.cons_append, matchParts_cons_body c (body2 ++ tailPart) hc, ← List.cons_append,
      htake, hdrop, List.takeWhile_eq_self_iff.mpr htailT,
      List.dropWhile_eq_nil_iff.mpr htailT, matchParts_nil]
  unfold splitText
  rw [hmp]
  rw [if_neg (by simp)]
  have hlen2 : (trimC ((c :: body2) ++ tailPart)).length ≤ 240 :=
    Nat.le_trans (trimC_length_le _) (Nat.le_of_lt hlen)
  simp only [List.map_cons, List.map_nil, List.flatten_cons, List.flatten_nil,
    List.append_nil]
  unfold partChunks
  rw [if_neg hne, if_pos hlen2]

/-- C7 witness: `ab.` is under the limit with terminators only as a trailing
run, and splits into the single chunk `ab.`. -/
theorem claim_C7_witness : splitText ("ab.".toList) = [trimC ("ab.".toList)] :=
  claim_C7_amended ("ab.".toList) ['a', 'b'] ['.'] (by decide) (by decide)
    (by decide) (by decide) (by decide) (by decide)

/-! The playback loop: in-order consumption (C1) and cancellation (C2),
with the temp-file cleanup facts shared with C9. -/

theorem playLoopAux_all_ok (e : LoopEnv) :
    ∀ (l plays received : List Nat),
      (∀ i ∈ l, okAtAwait e i = true ∧ okAtPlay e i = true ∧ e.playOk i = true) →
      playLoopAux e plays received l = ⟨plays ++ l, received ++ l, LoopExit.normal⟩ := by
  intro l
  induction l with
  | nil =>
    intro plays received _
    simp [playLoopAux]
  | cons i rest ih =>
    intro plays received h
    have hi := h i (List.mem_cons_self i rest)
    simp only [playLoopAux]
    rw [if_neg (by simp [hi.1]), if_neg (by simp [hi.2.1]), if_pos hi.2.2]
    rw [ih (plays ++ [i]) (received ++ [i])
      (fun j hj => h j (List.mem_cons_of_mem i hj))]
    simp

theorem playLoopAux_take (e : LoopEnv) :
    ∀ (l plays received : List Nat),
      ∃ m, (playLoopAux e plays received l).plays = plays ++ l.take m := by
  intro l
  induction l with
  | nil =>
    intro plays received
    exact ⟨0, by simp [playLoopAux]⟩
  | cons i rest ih =>
    intro plays received
    simp only [playLoopAux]
    by_cases h1 : okAtAwait e i = false
    · rw [if_pos h1]
      exact ⟨0, by simp⟩
    · rw [if_neg h1]
      by_cases h2 : okAtPlay e i = false
      · rw [if_pos h2]
        exact ⟨0, by simp⟩
      · rw [if_neg h2]
        by_cases h3 : e.playOk i = true
        · rw [if_pos h3]
          obtain ⟨m, hm⟩ := ih (plays ++ [i]) (received ++ [i])
          refine ⟨m + 1, ?_⟩
          rw [hm, List.take_succ_cons, List.append_assoc]
          rfl
        · rw [if_neg h3]
          exact ⟨1, by simp⟩

/-- C1 counterexample: with two chunks, the invocation never cancelled nor
disabled (every guard passes), but the first `playAudio` call rejecting
(every candidate player failed), the loop aborts after one play invocation:
the observed sequence is `[0]`, not `[0, 1]`. -/
theorem claim_C1_counterexample :
    (∀ i ∈ List.range 2,
        okAtAwait ⟨fun _ => true, fun _ => true, fun _ => true, fun _ => true,
          fun i => decide (0 < i)⟩ i = true ∧
        okAtPlay ⟨fun _ => true, fun _ => true, fun _ => true, fun _ => true,
          fun i => decide (0 < i)⟩ i = true) ∧
      (playFromWorkers ⟨fun _ => true, fun _ => true, fun _ => true, fun _ => true,
        fun i => decide (0 < i)⟩ 2).plays = [0] ∧
      [0] ≠ List.range 2 := by
  refine ⟨by decide, by decide, by decide⟩

/-- C1 (amended): for an invocation with `n` chunks that is not cancelled or
disabled mid-stream, the sequence of play invocations is always an initial
segment `[0, ..., k]` of `[0, ..., n-1]` — chunk `i`'s playback completes
before chunk `i+1` is played, regardless of the order in which generations
complete — and it is exactly `[0, ..., n-1]` when every `playAudio` call
resolves; a rejected `playAudio` call aborts the remainder of the
invocation. -/
theorem claim_C1_amended (e : LoopEnv) (n : Nat)
    (hok : ∀ i, i < n → okAtAwait e i = true ∧ okAtPlay e i = true) :
    (∃ m, (playFromWorkers e n).plays = (List.range n).take m) ∧
      ((∀ i, i < n → e.playOk i = true) →
        (playFromWorkers e n).plays = List.range n ∧
          (playFromWorkers e n).received = List.range n ∧
          (playFromWorkers e n).exit = LoopExit.normal) := by
  constructor
  · exact playLoopAux_take e (List.range n) [] []
  · intro hplay
    have h := playLoopAux_all_ok e (List.range n) [] []
      (fun i hi => by
        have hilt := List.mem_range.mp hi
        exact ⟨(hok i hilt).1, (hok i hilt).2, hplay i hilt⟩)
    unfold playFromWorkers
    rw [h]
    simp

/-- C1 witness: with two chunks, all guards passing and both plays
resolving, the play sequence is exactly `[0, 1]`. -/
theorem claim_C1_witness :
    (playFromWorkers ⟨fun _ => true, fun _ => true, fun _ => true, fun _ => true,
      fun _ => true⟩ 2).plays = List.range 2 :=
  ((claim_C1_amended ⟨fun _ => true, fun _ => true, fun _ => true, fun _ => true,
      fun _ => true⟩ 2 (fun _ _ => ⟨rfl, rfl⟩)).2 (fun _ _ => rfl)).1

theorem unlinkCaught_eq {α : Type} [DecidableEq α] (fs : List α) (f : α) :
    unlinkCaught fs f = Except.ok (if f ∈ fs then fs.erase f else fs) := by
  by_cases h : f ∈ fs
  · simp [unlinkCaught, unlinkE, h]
  · simp [unlinkCaught, unlinkE, h]

theorem cleanupFiles_ok {α : Type} [DecidableEq α] :
    ∀ (files fs : List α), cleanupFiles files fs = Except.ok (cleanupRun files fs) := by
  intro files
  induction files with
  | nil => intro fs; rfl
  | cons f files ih =>
    intro fs
    show (unlinkCaught fs f >>= fun st => List.foldlM _ st files) = _
    rw [unlinkCaught_eq fs f]
    show cleanupFiles files (if f ∈ fs then fs.erase f else fs) = _
    rw [ih]
    rfl

theorem cleanupRun_eq_filter {α : Type} [DecidableEq α] :
    ∀ (files fs : List α), fs.Nodup →
      cleanupRun files fs = fs.filter (fun x => decide (x ∉ files)) := by
  intro files
  induction files with
  | nil =>
    intro fs _
    simp [cleanupRun]
  | cons f files ih =>
    intro fs hnd
    show cleanupRun files (if f ∈ fs then fs.erase f else fs) = _
    by_cases hf : f ∈ fs
    · rw [if_pos hf]
      rw [ih _ (hnd.erase f)]
      rw [List.Nodup.erase_eq_filter hnd f, List.filter_filter]
      apply List.filter_congr
      intro x _
      by_cases h1 : x = f
      · subst h1
        simp
      · simp [h1]
    · rw [if_neg hf, ih _ hnd]
      apply List.filter_congr
      intro x hx
      have hxf : x ≠ f := fun h => hf (h ▸ hx)
      simp [hxf]

theorem cleanupRun_not_mem {α : Type} [DecidableEq α] (files fs : List α)
    (hnd : fs.Nodup) : ∀ f ∈ files, f ∉ cleanupRun files fs := by
  intro f hf hmem
  rw [cleanupRun_eq_filter files fs hnd] at hmem
  have h2 := List.of_mem_filter hmem
  simp only [decide_eq_true_eq] at h2
  exact h2 hf

theorem producedFiles_nodup (g : Nat → Bool) (n : Nat) :
    (producedFiles g n).Nodup :=
  (List.nodup_range n).filter g

/-- C2 counterexample: two chunks, both generations complete (so two temp
files exist), the token is still valid at the check before `await tasks[0]`
but has been bumped by the time of the check before playing chunk 0.  The
invocation performs zero play invocations, as claimed — but only chunk 0's
file is in the loop's `files` list, so chunk 1's produced temp file survives
the cleanup: not every temp file produced for the invocation is deleted. -/
theorem claim_C2_counterexample :
    (⟨fun _ => true, fun _ => true, fun _ => true, fun _ => false,
        fun _ => true⟩ : LoopEnv).tokenOkAtAwait 0 = true ∧
      (⟨fun _ => true, fun _ => true, fun _ => true, fun _ => false,
        fun _ => true⟩ : LoopEnv).tokenOkAtPlay 0 = false ∧
      (speakWorkersRun ⟨fun _ => true, fun _ => true, fun _ => true, fun _ => false,
        fun _ => true⟩ (fun _ => true) 2).1.plays = [] ∧
      1 ∈ producedFiles (fun _ => true) 2 ∧
      1 ∈ (speakWorkersRun ⟨fun _ => true, fun _ => true, fun _ => true, fun _ => false,
        fun _ => true⟩ (fun _ => true) 2).2 := by
  refine ⟨rfl, rfl, by decide, by decide, by decide⟩

/-- C2 (amended): if the cancellation token is bumped after the invocation
captures it but before any chunk is played (so the bump is visible at one of
the two guards of iteration 0), the invocation performs zero play
invocations, and every temp file the playback loop received into its `files`
list is deleted by the cleanup on loop exit; temp files produced by
generations whose results the loop never consumed are outside that list and
are not deleted by the loop's cleanup. -/
theorem claim_C2_amended (e : LoopEnv) (generated : Nat → Bool) (n : Nat)
    (hbump : e.tokenOkAtAwait 0 = false ∨ e.tokenOkAtPlay 0 = false) :
    (speakWorkersRun e generated n).1.plays = [] ∧
      ∀ f ∈ (speakWorkersRun e generated n).1.received,
        f ∉ (speakWorkersRun e generated n).2 := by
  constructor
  · show (playFromWorkers e n).plays = []
    cases n with
    | zero => rfl
    | succ n =>
      unfold playFromWorkers
      rw [List.range_succ_eq_map]
      simp only [playLoopAux]
      by_cases h1 : okAtAwait e 0 = false
      · rw [if_pos h1]
      · rw [if_neg h1]
        have htok : e.tokenOkAtAwait 0 = true := by
          cases h : e.tokenOkAtAwait 0
          · exact absurd (by simp [okAtAwait, h]) h1
          · rfl
        have hplay0 : e.tokenOkAtPlay 0 = false := by
          rcases hbump with h | h
          · exact absurd htok (by simp [h])
          · exact h
        rw [if_pos (by simp [okAtPlay, hplay0])]
  · show ∀ f ∈ (playFromWorkers e n).received,
      f ∉ cleanupRun (playFromWorkers e n).received (producedFiles generated n)
    exact cleanupRun_not_mem _ _ (producedFiles_nodup generated n)

/-- C2 witness: concrete instance of the amended claim with the token bumped
during the await of chunk 0's result. -/
theorem claim_C2_witness :
    (speakWorkersRun ⟨fun _ => true, fun _ => true, fun _ => true, fun _ => false,
      fun _ => true⟩ (fun _ => true) 2).1.plays = [] :=
  (claim_C2_amended ⟨fun _ => true, fun _ => true, fun _ => true, fun _ => false,
    fun _ => true⟩ (fun _ => true) 2 (Or.inr rfl)).1

/-- C9: temp-file cleanup never raises — for every list of paths and every
filesystem it returns normally, with each per-file deletion error swallowed
individually; the surviving files are exactly those not listed (so one
failed delete never blocks the others); and running the cleanup a second
time on the same (now partly deleted) file set changes nothing and does not
error. -/
theorem claim_C9 (files fs : List String) (hnd : fs.Nodup) :
    cleanupFiles files fs = Except.ok (cleanupRun files fs) ∧
      cleanupRun files fs = fs.filter (fun x => decide (x ∉ files)) ∧
      cleanupRun files (cleanupRun files fs) = cleanupRun files fs := by
  refine ⟨cleanupFiles_ok files fs, cleanupRun_eq_filter files fs hnd, ?_⟩
  rw [cleanupRun_eq_filter files fs hnd]
  rw [cleanupRun_eq_filter files _ (hnd.filter _), List.filter_filter]
  apply List.filter_congr
  intro x _
  cases h : decide (x ∉ files)
  · simp [h]
  · simp [h]

/-- C9 witness: cleaning up `a` and `b` against a filesystem holding only
`b` succeeds, deletes `b`, and is idempotent, even though deleting `a`
fails. -/
theorem claim_C9_witness :
    cleanupFiles ["a", "b"] ["b"] = Except.ok (cleanupRun ["a", "b"] ["b"]) ∧
      cleanupRun ["a", "b"] ["b"] =
        (["b"] : List String).filter (fun x => decide (x ∉ ["a", "b"])) ∧
      cleanupRun ["a", "b"] (cleanupRun ["a", "b"] ["b"]) =
        cleanupRun ["a", "b"] ["b"] :=
  claim_C9 ["a", "b"] ["b"] (by decide)

/-! The player fallback engine: cache behavior (C3) and failure surfacing
(C4). -/

theorem tryLoop_cons_fail (o : Nat → Option Int) (p : String) (rest : List String)
    (k : Nat) (att errs : List String) (cache : Option String) (code : Int)
    (hck : o k = some code) (hcnz : code ≠ 0) :
    tryLoop o (p :: rest) k att errs cache =
      tryLoop o rest (k + 1) (att ++ [p]) (errs ++ [p]) cache := by
  simp only [tryLoop, hck]
  rw [if_neg hcnz]

theorem tryLoop_attempts_take (o : Nat → Option Int) :
    ∀ (ps : List String) (k : Nat) (att errs : List String) (cache : Option String),
      ∃ rest, (tryLoop o ps k att errs cache).attempts = att ++ rest ∧
        rest.take 1 = ps.take 1 := by
  intro ps
  induction ps with
  | nil =>
    intro k att errs cache
    exact ⟨[], by simp [tryLoop]⟩
  | cons p rest ih =>
    intro k att errs cache
    cases ho : o k with
    | none => exact ⟨[p], by simp [tryLoop, ho]⟩
    | some code =>
      by_cases hc : code = 0
      · exact ⟨[p], by simp [tryLoop, ho, hc]⟩
      · obtain ⟨r, hr1, _⟩ := ih (k + 1) (att ++ [p]) (errs ++ [p]) cache
        refine ⟨p :: r, ?_, by simp⟩
        rw [tryLoop_cons_fail o p rest k att errs cache code ho hc, hr1,
          List.append_assoc]
        rfl

theorem tryLoop_all_fail (o : Nat → Option Int) :
    ∀ (ps : List String) (k : Nat) (att errs : List String) (cache : Option String),
      (∀ j, k ≤ j → j < k + ps.length → ∃ code, o j = some code ∧ code ≠ 0) →
      tryLoop o ps k att errs cache = ⟨att ++ ps, errs ++ ps, cache, TryOutcome.allFailed⟩ := by
  intro ps
  induction ps with
  | nil =>
    intro k att errs cache _
    simp [tryLoop]
  | cons p rest ih =>
    intro k att errs cache h
    obtain ⟨code, hck, hcnz⟩ := h k (Nat.le_refl k) (by simp only [List.length_cons]; omega)
    rw [tryLoop_cons_fail o p rest k att errs cache code hck hcnz]
    rw [ih (k + 1) (att ++ [p]) (errs ++ [p]) cache
      (fun j hj1 hj2 => h j (by omega) (by simp only [List.length_cons]; omega))]
    simp

theorem tryLoop_first_success (o : Nat → Option Int) :
    ∀ (ps1 : List String) (y : String) (ps2 : List String) (k : Nat)
      (att errs : List String) (cache : Option String),
      (∀ j, j < ps1.length → ∃ code, o (k + j) = some code ∧ code ≠ 0) →
      o (k + ps1.length) = some 0 →
      tryLoop o (ps1 ++ y :: ps2) k att errs cache =
        ⟨att ++ ps1 ++ [y], errs ++ ps1, some y, TryOutcome.success⟩ := by
  intro ps1
  induction ps1 with
  | nil =>
    intro y ps2 k att errs cache _ h0
    simp only [List.length_nil, Nat.add_zero] at h0
    simp [tryLoop, h0]
  | cons p ps1 ih =>
    intro y ps2 k att errs cache hfail h0
    obtain ⟨code, hck, hcnz⟩ := by
      have h1 := hfail 0 (by simp)
      rwa [Nat.add_zero] at h1
    rw [List.cons_append,
      tryLoop_cons_fail o p (ps1 ++ y :: ps2) k att errs cache code hck hcnz]
    rw [ih y ps2 (k + 1) (att ++ [p]) (errs ++ [p]) cache
      (fun j hj => by
        have h2 := hfail (j + 1) (by simpa using Nat.succ_lt_succ hj)
        rwa [show k + (j + 1) = k + 1 + j by omega] at h2)
      (by
        have h3 : k + (p :: ps1).length = k + 1 + ps1.length := by
          simp only [List.length_cons]
          omega
        rwa [h3] at h0)]
    simp

theorem tryPlayers_none (players : List String) (o : Nat → Option Int) :
    tryPlayers players none o = tryLoop o players 0 [] [] none := rfl

theorem tryPlayers_not_mem (players : List String) (c : String) (o : Nat → Option Int)
    (hmem : c ∉ players) :
    tryPlayers players (some c) o = tryLoop o players 0 [] [] (some c) := by
  simp only [tryPlayers, hmem, if_false]

theorem tryPlayers_cached_spawn (players : List String) (c : String)
    (o : Nat → Option Int) (hmem : c ∈ players) (ho : o 0 = none) :
    tryPlayers players (some c) o = ⟨[c], [], some c, TryOutcome.spawnErr⟩ := by
  simp only [tryPlayers, hmem, if_true, ho]

theorem tryPlayers_cached_zero (players : List String) (c : String)
    (o : Nat → Option Int) (hmem : c ∈ players) (code : Int)
    (ho : o 0 = some code) (hc : code = 0) :
    tryPlayers players (some c) o = ⟨[c], [], some c, TryOutcome.success⟩ := by
  simp only [tryPlayers, hmem, if_true, ho]
  rw [if_pos hc]

theorem tryPlayers_cached_fail (players : List String) (c : String)
    (o : Nat → Option Int) (hmem : c ∈ players) (code : Int)
    (ho : o 0 = some code) (hc : code ≠ 0) :
    tryPlayers players (some c) o = tryLoop o players 1 [c] [] none := by
  simp only [tryPlayers, hmem, if_true, ho]
  rw [if_neg hc]

theorem tryPlayers_first_attempt (players : List String) (cache : Option String)
    (o : Nat → Option Int) :
    (tryPlayers players cache o).attempts.take 1 =
      (match cache with
        | some c => if c ∈ players then [c] else players.take 1
        | none => players.take 1) := by
  cases cache with
  | none =>
    rw [tryPlayers_none]
    obtain ⟨r, hr1, hr2⟩ := tryLoop_attempts_take o players 0 [] [] none
    rw [hr1, List.nil_append, hr2]
  | some c =>
    by_cases hmem : c ∈ players
    · show _ = if c ∈ players then [c] else players.take 1
      rw [if_pos hmem]
      cases ho : o 0 with
      | none =>
        rw [tryPlayers_cached_spawn players c o hmem ho]
        rfl
      | some code =>
        by_cases hc : code = 0
        · rw [tryPlayers_cached_zero players c o hmem code ho hc]
          rfl
        · rw [tryPlayers_cached_fail players c o hmem code ho hc]
          obtain ⟨r, hr1, _⟩ := tryLoop_attempts_take o players 1 [c] [] none
          rw [hr1]
          rfl
    · show _ = if c ∈ players then [c] else players.take 1
      rw [if_neg hmem, tryPlayers_not_mem players c o hmem]
      obtain ⟨r, hr1, hr2⟩ := tryLoop_attempts_take o players 0 [] [] (some c)
      rw [hr1, List.nil_append, hr2]

/-- C3 counterexample: on the macOS candidate list, after a call in which the
cached player `afplay` fails (cache-hit failure, then every candidate fails,
so the cache is cleared), the next call attempts `afplay` first again — it
is the first candidate in declared order — contradicting `the next play call
after X's failure does not retry X first`. -/
theorem claim_C3_counterexample :
    (tryPlayers darwinPlayers (some "afplay") (fun _ => some 1)).attempts.take 1 =
      ["afplay"] ∧
      (tryPlayers darwinPlayers (some "afplay") (fun _ => some 1)).outcome =
        TryOutcome.allFailed ∧
      (tryPlayers darwinPlayers (some "afplay") (fun _ => some 1)).cache = none ∧
      (tryPlayers darwinPlayers ((tryPlayers darwinPlayers (some "afplay")
          (fun _ => some 1)).cache) (fun _ => some 1)).attempts.take 1 = ["afplay"] := by
  refine ⟨by decide, by decide, by decide, by decide⟩

/-- C3 (amended): with the cached name present in the candidate list, the
cached player is attempted first (found by name, not position); a cached
attempt that exits 0 ends the call at once with the cache kept; when the
cached attempt exits non-zero, the cache is cleared and the call falls
through to every candidate in declared order, stopping at the first success
and caching that candidate's name.  The next call then attempts the
fall-through success first if there was one, and otherwise starts from the
first candidate in declared order — so it may well attempt the failed
player first again (when it leads the declared order, or when the
fall-through re-succeeded with it), rather than never retrying it first. -/
theorem claim_C3_amended (players : List String) (c : String)
    (o o2 : Nat → Option Int) (hc : c ∈ players) :
    (tryPlayers players (some c) o).attempts.take 1 = [c] ∧
      (o 0 = some 0 →
        tryPlayers players (some c) o = ⟨[c], [], some c, TryOutcome.success⟩) ∧
      (∀ e0 : Int, o 0 = some e0 → e0 ≠ 0 →
        (∀ j, 1 ≤ j → j < 1 + players.length → ∃ code, o j = some code ∧ code ≠ 0) →
        tryPlayers players (some c) o =
          ⟨c :: players, players, none, TryOutcome.allFailed⟩ ∧
        (tryPlayers players ((tryPlayers players (some c) o).cache) o2).attempts.take 1 =
          players.take 1) ∧
      (∀ (e0 : Int) (ps1 : List String) (y : String) (ps2 : List String),
        o 0 = some e0 → e0 ≠ 0 → players = ps1 ++ y :: ps2 →
        (∀ j, j < ps1.length → ∃ code, o (1 + j) = some code ∧ code ≠ 0) →
        o (1 + ps1.length) = some 0 →
        tryPlayers players (some c) o =
          ⟨c :: (ps1 ++ [y]), ps1, some y, TryOutcome.success⟩ ∧
        (tryPlayers players (some y) o2).attempts.take 1 = [y]) := by
  refine ⟨?_, ?_, ?_, ?_⟩
  · rw [tryPlayers_first_attempt]
    show (if c ∈ players then [c] else players.take 1) = [c]
    rw [if_pos hc]
  · intro h0
    show (if c ∈ players then _ else _) = _
    rw [if_pos hc, h0]
    rfl
  · intro e0 h0 hnz hrest
    have hmain : tryPlayers players (some c) o =
        ⟨c :: players, players, none, TryOutcome.allFailed⟩ := by
      show (if c ∈ players then _ else _) = _
      rw [if_pos hc, h0]
      show (if e0 = 0 then _ else tryLoop o players 1 [c] [] none) = _
      rw [if_neg hnz]
      rw [tryLoop_all_fail o players 1 [c] [] none hrest]
      rfl
    refine ⟨hmain, ?_⟩
    rw [hmain]
    rw [tryPlayers_first_attempt]
  · intro e0 ps1 y ps2 h0 hnz hps hfail hsucc
    subst hps
    have hmain : tryPlayers (ps1 ++ y :: ps2) (some c) o =
        ⟨c :: (ps1 ++ [y]), ps1, some y, TryOutcome.success⟩ := by
      show (if c ∈ ps1 ++ y :: ps2 then _ else _) = _
      rw [if_pos hc, h0]
      show (if e0 = 0 then _ else tryLoop o (ps1 ++ y :: ps2) 1 [c] [] none) = _
      rw [if_neg hnz]
      rw [tryLoop_first_success o ps1 y ps2 1 [c] [] none hfail hsucc]
      simp
    refine ⟨hmain, ?_⟩
    rw [tryPlayers_first_attempt]
    show (if y ∈ ps1 ++ y :: ps2 then [y] else _) = [y]
    rw [if_pos (List.mem_append_right ps1 (List.mem_cons_self y ps2))]

/-- C3 witness: concrete cache-hit failure on the macOS list with every
candidate failing: the call tries `afplay` (cached), then the whole list,
clears the cache, and the next call starts from the declared order. -/
theorem claim_C3_witness :
    tryPlayers darwinPlayers (some "afplay") (fun _ => some 1) =
      ⟨"afplay" :: darwinPlayers, darwinPlayers, none, TryOutcome.allFailed⟩ ∧
      (tryPlayers darwinPlayers ((tryPlayers darwinPlayers (some "afplay")
          (fun _ => some 1)).cache) (fun _ => some 0)).attempts.take 1 =
        darwinPlayers.take 1 :=
  (claim_C3_amended darwinPlayers "afplay" (fun _ => some 1) (fun _ => some 0)
    (by decide)).2.2.1 1 rfl (by decide)
    (fun j _ _ => ⟨1, rfl, by decide⟩)

/-- C4 (code-bug evaluation): on the Linux candidate list with an empty
cache, when spawning the first candidate `paplay` throws (missing
executable) while the very next spawn would have exited 0, `tryPlayers`
propagates the spawn exception after attempting only `paplay`: it raises a
failure although not every candidate failed, no further candidate is tried,
and the raised error aggregates no player names — contradicting the claimed
`spawn failure counts as that candidate failing and the engine proceeds to
the next candidate`. -/
theorem claim_C4_eval :
    (tryPlayers linuxPlayers none (fun k => if k = 0 then none else some 0)).outcome =
        TryOutcome.spawnErr ∧
      (tryPlayers linuxPlayers none (fun k => if k = 0 then none else some 0)).attempts =
        ["paplay"] ∧
      (tryPlayers linuxPlayers none (fun k => if k = 0 then none else some 0)).failures =
        [] ∧
      (fun k => if k = 0 then none else (some 0 : Option Int)) 1 = some 0 := by
  refine ⟨by decide, by decide, by decide, rfl⟩

/-- C8: every sample is clamped to [-1, 1] before integer conversion, so the
scaled value is within [-32768, 32767], truncation stays within those
bounds, and the ToInt16 wrap is the identity: the stored 16-bit value equals
the truncated scaled sample with no overflow or wraparound. -/
theorem claim_C8 (q : ℚ) :
    -32768 ≤ writeWavSample q ∧ writeWavSample q ≤ 32767 ∧
      writeWavSample q = truncQ (scaleSample q) := by
  have hclamp1 : -1 ≤ clampSample q := le_max_left _ _
  have hclamp2 : clampSample q ≤ 1 := max_le (by norm_num) (min_le_left _ _)
  have hs1 : -32768 ≤ scaleSample q := by
    unfold scaleSample
    split_ifs with h
    · nlinarith [hclamp1]
    · nlinarith [not_lt.mp h]
  have hs2 : scaleSample q ≤ 32767 := by
    unfold scaleSample
    split_ifs with h
    · nlinarith [h]
    · nlinarith [hclamp2, not_lt.mp h]
  have ht1 : -32768 ≤ truncQ (scaleSample q) := by
    unfold truncQ
    split_ifs with h
    · have : ((-32768 : ℤ) : ℚ) ≤ scaleSample q := by push_cast; linarith
      exact Int.le_floor.mpr this
    · calc (-32768 : ℤ) = ⌈((-32768 : ℤ) : ℚ)⌉ := by rw [Int.ceil_intCast]
        _ ≤ ⌈scaleSample q⌉ := Int.ceil_le_ceil (by push_cast; linarith)
  have ht2 : truncQ (scaleSample q) ≤ 32767 := by
    unfold truncQ
    split_ifs with h
    · calc ⌊scaleSample q⌋ ≤ ⌊((32767 : ℤ) : ℚ)⌋ := Int.floor_le_floor (by push_cast; linarith)
        _ = 32767 := Int.floor_intCast 32767
    · exact Int.ceil_le.mpr (by push_cast; linarith)
  refine ⟨?_, ?_, ?_⟩
  · unfold writeWavSample toInt16
    split_ifs with h
    · omega
    · omega
  · unfold writeWavSample toInt16
    split_ifs with h
    · omega
    · omega
  · unfold writeWavSample toInt16
    split_ifs with h
    · omega
    · omega

/-- C10: a `speakHttp` call never rejects — for every environment outcome
the returned promise resolves — and when the config is disabled (or the text
trims to nothing) it returns immediately, performing no fetch, write or
play. -/
theorem claim_C10 (env : HttpEnv) (enabled : Bool) (text : List Char) :
    (speakHttp env enabled text).1 = Except.ok () ∧
      ((enabled = false ∨ trimC text = []) →
        speakHttp env enabled text = (Except.ok (), [])) := by
  constructor
  · unfold speakHttp
    split_ifs with h
    · rfl
    · show catchAll (speakHttpTry env).1 = Except.ok ()
      unfold catchAll
      cases (speakHttpTry env).1 <;> rfl
  · intro h
    unfold speakHttp
    rw [if_pos h]

/-- C10 witness: a disabled call against an environment in which the fetch
rejects and every player errors still resolves immediately with no
effects. -/
theorem claim_C10_witness :
    speakHttp ⟨Except.error (), Except.ok (), Except.ok (), fun _ => Except.error (),
        "linux"⟩ false ("hi".toList) = (Except.ok (), []) :=
  (claim_C10 ⟨Except.error (), Except.ok (), Except.ok (), fun _ => Except.error (),
    "linux"⟩ false ("hi".toList)).2 (Or.inl rfl)

end Tts
